import Mathlib

namespace OpPrecParse

/-!  Shallow embedding of `src/parse.py`, an operator-precedence
shift-reduce expression parsing machine.  Python strings are modelled
as Lean `String`, Python `None` as `Option.none`, and a raised
`KeyError` (possible in `takes_precedence` through an unguarded
dictionary lookup) as `Except.error`. -/

/-- Character class of CPython `str.isdigit`, modelled on the code
points up to U+00FF (Basic Latin and Latin-1 Supplement): the ASCII
digits together with the superscript digits U+00B2, U+00B3 and U+00B9.
Code points above U+00FF are classified as non-digits in this model. -/
def py_isdigit (ch : Char) : Bool :=
  decide ((48 ≤ ch.toNat ∧ ch.toNat ≤ 57) ∨ ch.toNat = 178 ∨ ch.toNat = 179 ∨ ch.toNat = 185)

/-- Character class of CPython `str.isalpha`, modelled on the code
points up to U+00FF: the ASCII letters together with the Latin-1
letters U+00AA, U+00B5, U+00BA, U+00C0–U+00D6, U+00D8–U+00F6 and
U+00F8–U+00FF.  Code points above U+00FF are classified as
non-alphabetic in this model. -/
def py_isalpha (ch : Char) : Bool :=
  decide ((65 ≤ ch.toNat ∧ ch.toNat ≤ 90) ∨ (97 ≤ ch.toNat ∧ ch.toNat ≤ 122) ∨
    ch.toNat = 170 ∨ ch.toNat = 181 ∨ ch.toNat = 186 ∨
    (192 ≤ ch.toNat ∧ ch.toNat ≤ 214) ∨ (216 ≤ ch.toNat ∧ ch.toNat ≤ 246) ∨
    (248 ≤ ch.toNat ∧ ch.toNat ≤ 255))

/-- Character class of CPython `str.isspace` (the classes used by
`str.split()` with no separator), modelled on the code points up to
U+00FF: TAB through CR, the separators U+001C–U+001F, space, NEL
U+0085 and NBSP U+00A0. -/
def py_isspace (ch : Char) : Bool :=
  decide ((9 ≤ ch.toNat ∧ ch.toNat ≤ 13) ∨ (28 ≤ ch.toNat ∧ ch.toNat ≤ 31) ∨
    ch.toNat = 32 ∨ ch.toNat = 133 ∨ ch.toNat = 160)

/-- CPython `str.isdigit` on a whole string: non-empty and every
character a digit. -/
def py_str_isdigit (s : String) : Bool := !s.data.isEmpty && s.data.all py_isdigit

/-- CPython `str.isalpha` on a whole string: non-empty and every
character alphabetic. -/
def py_str_isalpha (s : String) : Bool := !s.data.isEmpty && s.data.all py_isalpha

/-- Source: `OPERATORS = {"*": 2, "/": 2, "+": 1, "-": 1}`, modelled as
an association list. -/
def OPERATORS : List (String × Nat) := [("*", 2), ("/", 2), ("+", 1), ("-", 1)]

/-- Dictionary lookup `OPERATORS[tok]`; `none` models the absent-key
case, in which Python raises `KeyError`. -/
def OPERATORS_get (tok : String) : Option Nat :=
  (OPERATORS.find? (fun p => p.1 == tok)).map (fun p => p.2)

/-- The one kind of exception the source can raise: `KeyError` from the
dictionary lookups in `takes_precedence`. -/
inductive PyErr where
  | keyError : String → PyErr
deriving DecidableEq, Repr

/-- Source: `takes_precedence(op1, op2)`, i.e.
`OPERATORS[op1] >= OPERATORS[op2]`; a missing key raises `KeyError`,
modelled as `Except.error`. -/
def takes_precedence (op1 op2 : String) : Except PyErr Bool :=
  match OPERATORS_get op1 with
  | none => .error (.keyError op1)
  | some r1 =>
    match OPERATORS_get op2 with
    | none => .error (.keyError op2)
    | some r2 => .ok (decide (r1 ≥ r2))

/-- Source: `valid_op(token)`, the membership test `token in OPERATORS`. -/
def valid_op (token : String) : Bool := (OPERATORS_get token).isSome

/-- Source: `valid_arg(token)`, i.e.
`len(token) > 0 and (token.isdigit() or token.isalpha())`. -/
def valid_arg (token : String) : Bool :=
  decide (0 < token.length) && (py_str_isdigit token || py_str_isalpha token)

/-- Python truthiness of a string: non-empty. -/
def truthyStr (s : String) : Bool := !(s == "")

/-- Accumulator worker for `str.split()`: walk the characters, `acc`
holding the (reversed) characters of the word currently being read. -/
def wsplitAux : List Char → List Char → List (List Char)
  | [], acc => if acc.isEmpty then [] else [acc.reverse]
  | ch :: cs, acc =>
    if py_isspace ch then
      if acc.isEmpty then wsplitAux cs [] else acc.reverse :: wsplitAux cs []
    else wsplitAux cs (ch :: acc)

/-- Source: `lex(string)`, i.e. `string.split()`: split on runs of
whitespace, discarding empty fragments. -/
def lex (s : String) : List String := (wsplitAux s.data []).map (fun cs => ⟨cs⟩)

/-- Expression trees: the source represents a leaf as the token string
itself and an operator application as the 3-tuple `(left, op, right)`. -/
inductive Tree where
  | leaf : String → Tree
  | node : Tree → String → Tree → Tree
deriving DecidableEq, Repr

/-- Python truthiness of a tree value: a leaf is the underlying string
(truthy iff non-empty), a tuple is always truthy. -/
def truthyTree : Tree → Bool
  | .leaf s => truthyStr s
  | .node _ _ _ => true

/-- Python truthiness of an optional string (`None` is falsy). -/
def truthyOptStr : Option String → Bool
  | none => false
  | some s => truthyStr s

/-- The parser state strings "arg", "op" and "end". -/
inductive PState where
  | argState | opState | endState
deriving DecidableEq, Repr

/-- The fields of the `Parser` object during one `parse` call.  Stack
tops are list heads here (the Python lists keep the top at the end). -/
structure Config where
  ops : List String
  args : List Tree
  state : PState
  toks : List String
  index : Nat
deriving DecidableEq, Repr

/-- Source: `Parser.next_tok`: the token at the cursor, or `None` when
the input is exhausted. -/
def next_tok (c : Config) : Option String := c.toks[c.index]?

/-- Source: `Parser.peek_ops`: the top of the operator stack, or `None`. -/
def peek_ops (c : Config) : Option String :=
  match c.ops with
  | [] => none
  | op :: _ => some op

/-- Source: `Parser.pop_ops`: pop the operator stack if possible,
returning the popped value and the updated configuration. -/
def pop_ops (c : Config) : Option String × Config :=
  match c.ops with
  | [] => (none, c)
  | op :: rest => (some op, { c with ops := rest })

/-- Source: `Parser.pop_args`: pop the argument stack if possible. -/
def pop_args (c : Config) : Option Tree × Config :=
  match c.args with
  | [] => (none, c)
  | a :: rest => (some a, { c with args := rest })

/-- Source: `Parser.terminated`: `not (self.ops or self.next_tok())`
with Python truthiness. -/
def terminated (c : Config) : Bool :=
  !(!c.ops.isEmpty || truthyOptStr (next_tok c))

/-- Source: `Parser.shift_op`: `if tok and valid_op(tok)` push it and
go to the "arg" state, otherwise go to the "end" state. -/
def shift_op (c : Config) : Config :=
  match next_tok c with
  | some tok =>
    if truthyStr tok && valid_op tok then
      { c with ops := tok :: c.ops, index := c.index + 1, state := .argState }
    else { c with state := .endState }
  | none => { c with state := .endState }

/-- Source: `Parser.shift_arg`: `if tok and valid_arg(tok)` push a leaf
and go to the "op" state, otherwise go to the "end" state. -/
def shift_arg (c : Config) : Config :=
  match next_tok c with
  | some tok =>
    if truthyStr tok && valid_arg tok then
      { c with args := .leaf tok :: c.args, index := c.index + 1, state := .opState }
    else { c with state := .endState }
  | none => { c with state := .endState }

/-- Source: `Parser.reducible`: the operator stack has a (truthy) top
and either the input is exhausted (`if not tok`) or the top operator
takes precedence over the next token.  The `takes_precedence` call can
raise `KeyError` when the next token is not an operator. -/
def reducible (c : Config) : Except PyErr Bool :=
  match peek_ops c with
  | some top_op =>
    if truthyStr top_op then
      match next_tok c with
      | none => .ok true
      | some tok =>
        if !truthyStr tok then .ok true
        else takes_precedence top_op tok
    else .ok false
  | none => .ok false

/-- Source: `Parser.reduce`: pop one operator and two arguments (the
pops happen unconditionally), and `if operator and arg1 and arg2`
(Python truthiness) push the combined node, else go to the "end"
state. -/
def reduce (c : Config) : Config :=
  let p1 := pop_ops c
  let p2 := pop_args p1.2
  let p3 := pop_args p2.2
  match p1.1, p2.1, p3.1 with
  | some operator, some arg1, some arg2 =>
    if truthyStr operator && truthyTree arg1 && truthyTree arg2 then
      { p3.2 with args := .node arg2 operator arg1 :: p3.2.args }
    else { p3.2 with state := .endState }
  | _, _, _ => { p3.2 with state := .endState }

/-- One iteration of the driving loop in `Parser.parse`: dispatch on
the current state (the "end" case is never entered by the loop and is
the identity). -/
def step (c : Config) : Except PyErr Config :=
  match c.state with
  | .argState => .ok (shift_arg c)
  | .opState =>
    if terminated c then .ok { c with state := .endState }
    else
      match reducible c with
      | .error e => .error e
      | .ok true => .ok (reduce c)
      | .ok false => .ok (shift_op c)
  | .endState => .ok c

/-- Run the driving loop for at most `fuel` iterations, stopping as
soon as the state is "end"; a raised `KeyError` aborts the run. -/
def iter : Nat → Config → Except PyErr Config
  | 0, c => .ok c
  | fuel + 1, c =>
    if c.state = .endState then .ok c
    else
      match step c with
      | .error e => .error e
      | .ok c1 => iter fuel c1

/-- The machine configuration built at the start of `Parser.parse`. -/
def initConfig (toks : List String) : Config :=
  { ops := [], args := [], state := .argState, toks := toks, index := 0 }

/-- Result extraction at the end of `Parser.parse`:
`if self.terminated() and len(self.args) == 1: return self.args[0]`,
else `None`. -/
def finalResult (c : Config) : Option Tree :=
  if terminated c && c.args.length == 1 then c.args.head? else none

/-- The loop of `Parser.parse` run on a token list.  The fuel
`2 * toks.length + 1` is sufficient: the measure
`2 * (remaining tokens) + (operator stack size) + 1` strictly
decreases on every iteration taken from a non-"end" state (proved
below as `iter_halts`), so this computes the full `while` loop. -/
def parseToks (toks : List String) : Except PyErr (Option Tree) :=
  match iter (2 * toks.length + 1) (initConfig toks) with
  | .error e => .error e
  | .ok c => .ok (finalResult c)

/-- Source: `Parser.parse` — lex the input and run the machine. -/
def parse (s : String) : Except PyErr (Option Tree) := parseToks (lex s)

instance instDecEqExceptResult : DecidableEq (Except PyErr (Option Tree)) := fun x y =>
  match x, y with
  | .error e, .error f => if h : e = f then .isTrue (by rw [h]) else .isFalse (by simp [h])
  | .ok a, .ok b => if h : a = b then .isTrue (by rw [h]) else .isFalse (by simp [h])
  | .error _, .ok _ => .isFalse (by simp)
  | .ok _, .error _ => .isFalse (by simp)

instance instDecEqExceptConfig : DecidableEq (Except PyErr Config) := fun x y =>
  match x, y with
  | .error e, .error f => if h : e = f then .isTrue (by rw [h]) else .isFalse (by simp [h])
  | .ok a, .ok b => if h : a = b then .isTrue (by rw [h]) else .isFalse (by simp [h])
  | .error _, .ok _ => .isFalse (by simp)
  | .ok _, .error _ => .isFalse (by simp)

/-- In-order traversal of a tree: left subtree, operator, right
subtree; a leaf yields its single token. -/
def flat : Tree → List String
  | .leaf s => [s]
  | .node l op r => flat l ++ op :: flat r

/-- Well-formed trees: every leaf is a valid argument token and every
node operator is a valid operator.  All trees the machine ever pushes
satisfy this. -/
def WFt : Tree → Bool
  | .leaf s => valid_arg s
  | .node l op r => valid_op op && WFt l && WFt r

/-- Alternating token sequences: odd length, valid argument tokens at
the even positions and valid operators at the odd positions. -/
def altB : List String → Bool
  | [] => false
  | [t] => valid_arg t
  | t :: op :: rest => valid_arg t && valid_op op && altB rest

/-- Join a token list back into a string with single spaces between
consecutive tokens. -/
def joinTokens : List String → String
  | [] => ""
  | [t] => t
  | t :: rest => t ++ " " ++ joinTokens rest

/-- Modelled from the spec: the re-serialization used by the round-trip
property — "the tree is flattened back to an infix string with explicit
parenthesization", each operator node rendered as a parenthesized
"left op right" and each leaf as its literal string.  No serializer
exists in the source. -/
def serializeParens : Tree → String
  | .leaf s => s
  | .node l op r => "(" ++ serializeParens l ++ " " ++ op ++ " " ++ serializeParens r ++ ")"

/-- Serialization without parentheses: the in-order token sequence of
the tree joined with single spaces. -/
def serializeFlat (t : Tree) : String := joinTokens (flat t)

/-- Termination measure for the driving loop:
`2 * (remaining tokens) + (operator stack size) + 1`. -/
def fuelMeasure (c : Config) : Nat := 2 * (c.toks.length - c.index) + c.ops.length + 1

/-- The run of the driving loop has halted: it either raised an
exception or reached the "end" state. -/
def halted : Except PyErr Config → Bool
  | .error _ => true
  | .ok c => c.state == .endState

/-- Tokens consumed so far as recorded by stacks of the "arg"-state
shape (equally long stacks, most recent at the heads): bottom-up,
flattened argument followed by its operator. -/
def consumedToks : List Tree → List String → List String
  | [], _ => []
  | _ :: _, [] => []
  | a :: as, op :: os => consumedToks as os ++ flat a ++ [op]

/-- Stack/cursor shape while expecting an argument: equally long
stacks, and the consumed tokens are exactly the stack contents
interleaved. -/
def shapeA (toks : List String) (c : Config) : Prop :=
  c.args.length = c.ops.length ∧ toks.take c.index = consumedToks c.args c.ops

/-- Stack/cursor shape while expecting an operator: one more argument
than operators, the extra (top) argument consumed last. -/
def shapeO (toks : List String) (c : Config) : Prop :=
  ∃ a as, c.args = a :: as ∧ as.length = c.ops.length ∧
    toks.take c.index = consumedToks as c.ops ++ flat a

/-- The machine invariant: the token list is fixed, the cursor stays in
bounds, all stacked trees are well formed, all stacked operators are
valid, and the stacks have the shape dictated by the state (an "end"
state keeps the shape it halted in). -/
def Inv (toks : List String) (c : Config) : Prop :=
  c.toks = toks ∧ c.index ≤ toks.length ∧
  (∀ t ∈ c.args, WFt t = true) ∧ (∀ op ∈ c.ops, valid_op op = true) ∧
  (c.state = .argState → shapeA toks c) ∧
  (c.state = .opState → shapeO toks c) ∧
  (c.state = .endState → shapeA toks c ∨ shapeO toks c)

/-- Configurations reachable by the driving loop from the initial
configuration for a given token list (a raised exception has no
successor). -/
inductive Reach (toks : List String) : Config → Prop where
  | init : Reach toks (initConfig toks)
  | next : ∀ c c1, Reach toks c → c.state ≠ .endState → step c = .ok c1 → Reach toks c1

/-! Facts about the character classes and token predicates. -/

theorem py_digit_alpha_disjoint (ch : Char) :
    ¬(py_isdigit ch = true ∧ py_isalpha ch = true) := by
  simp only [py_isdigit, py_isalpha, decide_eq_true_eq]
  omega

theorem py_isdigit_not_space {ch : Char} (h : py_isdigit ch = true) : py_isspace ch = false := by
  simp only [py_isdigit, decide_eq_true_eq] at h
  simp only [py_isspace, decide_eq_false_iff_not]
  omega

theorem py_isalpha_not_space {ch : Char} (h : py_isalpha ch = true) : py_isspace ch = false := by
  simp only [py_isalpha, decide_eq_true_eq] at h
  simp only [py_isspace, decide_eq_false_iff_not]
  omega

theorem valid_arg_ne_empty {s : String} (h : valid_arg s = true) : s ≠ "" := by
  intro he
  subst he
  simp [valid_arg] at h

theorem valid_arg_beq_empty {s : String} (h : valid_arg s = true) : (s == "") = false := by
  have h2 := valid_arg_ne_empty h
  simp [h2]

theorem valid_arg_classes {s : String} (h : valid_arg s = true) :
    s.data.all py_isdigit = true ∨ s.data.all py_isalpha = true := by
  simp only [valid_arg, py_str_isdigit, py_str_isalpha, Bool.and_eq_true,
    Bool.or_eq_true] at h
  tauto

theorem valid_arg_no_space {s : String} (h : valid_arg s = true) :
    ∀ ch ∈ s.data, py_isspace ch = false := by
  intro ch hch
  rcases valid_arg_classes h with h2 | h2
  · exact py_isdigit_not_space (by rw [List.all_eq_true] at h2; exact h2 ch hch)
  · exact py_isalpha_not_space (by rw [List.all_eq_true] at h2; exact h2 ch hch)

theorem valid_op_cases {op : String} (h : valid_op op = true) :
    op = "*" ∨ op = "/" ∨ op = "+" ∨ op = "-" := by
  simp only [valid_op, OPERATORS_get, OPERATORS, List.find?] at h
  by_cases h1 : op = "*"
  · exact Or.inl h1
  rw [show (("*" : String) == op) = false from beq_eq_false_iff_ne.mpr (Ne.symm h1)] at h
  by_cases h2 : op = "/"
  · exact Or.inr (Or.inl h2)
  rw [show (("/" : String) == op) = false from beq_eq_false_iff_ne.mpr (Ne.symm h2)] at h
  by_cases h3 : op = "+"
  · exact Or.inr (Or.inr (Or.inl h3))
  rw [show (("+" : String) == op) = false from beq_eq_false_iff_ne.mpr (Ne.symm h3)] at h
  by_cases h4 : op = "-"
  · exact Or.inr (Or.inr (Or.inr h4))
  rw [show (("-" : String) == op) = false from beq_eq_false_iff_ne.mpr (Ne.symm h4)] at h
  simp at h

theorem valid_op_ne_empty {op : String} (h : valid_op op = true) : op ≠ "" := by
  rcases valid_op_cases h with h1 | h1 | h1 | h1 <;> subst h1 <;> decide

theorem valid_op_no_space {op : String} (h : valid_op op = true) :
    ∀ ch ∈ op.data, py_isspace ch = false := by
  rcases valid_op_cases h with h1 | h1 | h1 | h1 <;> subst h1 <;> decide

/-- C1: the spec claims `parse` never raises an exception on any input,
in particular on "3 + 2 4" where the reducibility check examines an
unconsumed token that is not an operator.  In fact the code raises
`KeyError` there: `reducible` passes the raw lookahead token "4" to
`takes_precedence`, whose dictionary lookup `OPERATORS["4"]` fails.
This contradicts the documented contract of `Parser.parse` ("An
expression tree on success, or None on failure") and the documented
assumption of `takes_precedence`, so the code, not the claim, is at
fault. -/
theorem C1_keyerror_on_invalid_lookahead :
    parse "3 + 2 4" = .error (.keyError "4") := rfl

/-- C3: `parse` honours the fixed precedence table on the four recorded
examples, and a single argument token parses to the literal leaf. -/
theorem C3_precedence_examples :
    parse "3 + 2 * 6" =
      .ok (some (.node (.leaf "3") "+" (.node (.leaf "2") "*" (.leaf "6")))) ∧
    parse "3 * 2 + 6" =
      .ok (some (.node (.node (.leaf "3") "*" (.leaf "2")) "+" (.leaf "6"))) ∧
    parse "3 * 2 + 6 / 4" =
      .ok (some (.node (.node (.leaf "3") "*" (.leaf "2")) "+"
        (.node (.leaf "6") "/" (.leaf "4")))) ∧
    parse "3" = .ok (some (.leaf "3")) :=
  ⟨rfl, rfl, rfl, rfl⟩

/-- C4: each of the six inputs "", "*", "?", "3 +", "+ 3" and "3 4"
makes `parse` return the failure value `None` rather than a tree. -/
theorem C4_rejection_set :
    parse "" = .ok none ∧ parse "*" = .ok none ∧ parse "?" = .ok none ∧
    parse "3 +" = .ok none ∧ parse "+ 3" = .ok none ∧ parse "3 4" = .ok none :=
  ⟨rfl, rfl, rfl, rfl, rfl, rfl⟩

/-- C9: the parse result depends only on the lexed token sequence —
`Parser.parse` stores `lex(string)` and never consults the raw input
again. -/
theorem C9_parse_depends_only_on_tokens (s s1 : String) (h : lex s = lex s1) :
    parse s = parse s1 := by
  unfold parse
  rw [h]

/-- C9 witness: two inputs differing only in whitespace lex to the same
tokens and parse identically. -/
theorem C9_parse_depends_only_on_tokens_witness :
    lex "3  + 2" = lex " 3 + 2 " ∧ parse "3  + 2" = parse " 3 + 2 " :=
  ⟨rfl, C9_parse_depends_only_on_tokens "3  + 2" " 3 + 2 " rfl⟩

/-- C8 counterexample: the claim restricts valid arguments to tokens of
decimal digits or ASCII letters, but the source predicates are the
Unicode-aware `str.isdigit` and `str.isalpha`: the token "é" is
accepted by `valid_arg` although no character of it is an ASCII letter
or a decimal digit (`Char.isDigit` and `Char.isAlpha` are exactly the
ASCII classes the claim describes). -/
theorem C8_ascii_iff_counterexample :
    valid_arg "é" = true ∧
    ¬("é".data ≠ [] ∧ ("é".data.all Char.isDigit = true ∨ "é".data.all Char.isAlpha = true)) := by
  constructor
  · rfl
  · decide

/-- C8 amended: `valid_arg` returns true iff the token is non-empty and
either all of its characters are digits or all are alphabetic in the
sense of Python's Unicode-aware `str.isdigit` / `str.isalpha`
(modelled on code points up to U+00FF) rather than the ASCII-only
classes; the empty string is always invalid, and no non-empty token
satisfies both class conditions. -/
theorem C8_validity_predicate (token : String) :
    (valid_arg token = true ↔
      token.data ≠ [] ∧ (token.data.all py_isdigit = true ∨ token.data.all py_isalpha = true)) ∧
    valid_arg "" = false ∧
    (token.data ≠ [] →
      ¬(token.data.all py_isdigit = true ∧ token.data.all py_isalpha = true)) := by
  refine ⟨?_, rfl, ?_⟩
  · constructor
    · intro hv
      refine ⟨?_, valid_arg_classes hv⟩
      intro he
      exact valid_arg_ne_empty hv (String.ext (by simp [he]))
    · rintro ⟨hne, hcl⟩
      have hie : token.data.isEmpty = false := List.isEmpty_eq_false.mpr hne
      have hlen : 0 < token.length := by
        show 0 < token.data.length
        exact List.length_pos.mpr hne
      rcases hcl with hd | hd
      · simp [valid_arg, py_str_isdigit, py_str_isalpha, hie, hlen, hd]
      · simp [valid_arg, py_str_isdigit, py_str_isalpha, hie, hlen, hd]
  · rintro hne ⟨hd, ha⟩
    cases hdata : token.data with
    | nil => exact hne hdata
    | cons ch rest =>
      rw [hdata, List.all_cons, Bool.and_eq_true] at hd ha
      exact py_digit_alpha_disjoint ch ⟨hd.1, ha.1⟩

/-- C8 witness: the amended characterisation evaluated at the token
"3". -/
theorem C8_validity_predicate_witness :
    (valid_arg "3" = true ↔
      "3".data ≠ [] ∧ ("3".data.all py_isdigit = true ∨ "3".data.all py_isalpha = true)) ∧
    valid_arg "" = false ∧
    ("3".data ≠ [] →
      ¬("3".data.all py_isdigit = true ∧ "3".data.all py_isalpha = true)) :=
  C8_validity_predicate "3"

/-! Facts about the lexer. -/

theorem string_append_assoc (x y z : String) : x ++ y ++ z = x ++ (y ++ z) :=
  String.ext (by simp [String.data_append])

theorem wsplitAux_word (t : List Char) (h : ∀ ch ∈ t, py_isspace ch = false) :
    ∀ cs acc, wsplitAux (t ++ cs) acc = wsplitAux cs (t.reverse ++ acc) := by
  induction t with
  | nil => intro cs acc; simp
  | cons ch t ih =>
    intro cs acc
    have hch : py_isspace ch = false := h ch (by simp)
    simp only [List.cons_append, wsplitAux, hch, Bool.false_eq_true, if_false,
      List.append_eq]
    rw [ih (fun x hx => h x (by simp [hx])) cs (ch :: acc)]
    simp

theorem wsplitAux_no_nil : ∀ cs acc, ∀ w ∈ wsplitAux cs acc, w ≠ [] := by
  intro cs
  induction cs with
  | nil =>
    intro acc w hw
    by_cases ha : acc.isEmpty
    · simp [wsplitAux, ha] at hw
    · simp [wsplitAux, ha] at hw
      subst hw
      simp only [ne_eq, List.reverse_eq_nil_iff]
      exact List.isEmpty_eq_false.mp (by simpa using ha)
  | cons ch cs ih =>
    intro acc w hw
    by_cases hsp : py_isspace ch
    · by_cases ha : acc.isEmpty
      · rw [show wsplitAux (ch :: cs) acc = wsplitAux cs [] by simp [wsplitAux, hsp, ha]] at hw
        exact ih [] w hw
      · rw [show wsplitAux (ch :: cs) acc = acc.reverse :: wsplitAux cs [] by
          simp [wsplitAux, hsp, ha], List.mem_cons] at hw
        rcases hw with hw | hw
        · subst hw
          simp only [ne_eq, List.reverse_eq_nil_iff]
          exact List.isEmpty_eq_false.mp (by simpa using ha)
        · exact ih [] w hw
    · rw [show wsplitAux (ch :: cs) acc = wsplitAux cs (ch :: acc) by
        simp [wsplitAux, hsp]] at hw
      exact ih (ch :: acc) w hw

theorem lex_no_empty (s : String) : ∀ t ∈ lex s, t ≠ "" := by
  intro t ht he
  unfold lex at ht
  rw [List.mem_map] at ht
  obtain ⟨w, hw, hmk⟩ := ht
  apply wsplitAux_no_nil s.data [] w hw
  have hmk2 : (⟨w⟩ : String) = "" := by rw [hmk, he]
  simpa using congrArg String.data hmk2

theorem lex_join (ts : List String)
    (h : ∀ t ∈ ts, t ≠ "" ∧ ∀ ch ∈ t.data, py_isspace ch = false) :
    lex (joinTokens ts) = ts := by
  induction ts with
  | nil => rfl
  | cons t rest ih =>
    obtain ⟨hne, hns⟩ := h t (by simp)
    have hdne : t.data ≠ [] := fun he => hne (String.ext (by simp [he]))
    cases rest with
    | nil =>
      show (wsplitAux (joinTokens [t]).data []).map (fun cs => (⟨cs⟩ : String)) = [t]
      rw [show joinTokens [t] = t from rfl]
      have h1 : wsplitAux t.data [] = wsplitAux ([] : List Char) (t.data.reverse) := by
        simpa using wsplitAux_word t.data hns [] []
      rw [h1]
      have h2 : t.data.reverse.isEmpty = false := by simp [hdne]
      simp [wsplitAux, h2]
    | cons u rest2 =>
      have ihr := ih (fun x hx => h x (by simp at hx; simp [hx]))
      show (wsplitAux (joinTokens (t :: u :: rest2)).data []).map
        (fun cs => (⟨cs⟩ : String)) = t :: u :: rest2
      rw [show joinTokens (t :: u :: rest2) = t ++ " " ++ joinTokens (u :: rest2) from rfl]
      have hdata : (t ++ " " ++ joinTokens (u :: rest2)).data
          = t.data ++ (' ' :: (joinTokens (u :: rest2)).data) := by
        rw [String.data_append, String.data_append, List.append_assoc]
        rfl
      have ihr2 : (wsplitAux (joinTokens (u :: rest2)).data []).map
          (fun cs => (⟨cs⟩ : String)) = u :: rest2 := ihr
      rw [hdata, wsplitAux_word t.data hns _ _]
      simp only [List.append_nil]
      rw [show wsplitAux (' ' :: (joinTokens (u :: rest2)).data) t.data.reverse
          = t.data :: wsplitAux (joinTokens (u :: rest2)).data [] from by
        simp [wsplitAux, show py_isspace ' ' = true from rfl, hdne]]
      rw [List.map_cons, ihr2]

/-- C5 counterexample: the source grammar has no parentheses, so the
spec's parenthesized re-serialization never reparses: already for the
two-token sum, `parse` succeeds with a tree `t`, yet parsing the
explicit parenthesization "(3 + 2)" of `t` yields the failure value
`None`, not a tree identical to `t`. -/
theorem C5_parens_roundtrip_counterexample :
    parse "3 + 2" = .ok (some (.node (.leaf "3") "+" (.leaf "2"))) ∧
    parse (serializeParens (.node (.leaf "3") "+" (.leaf "2"))) ≠
      .ok (some (.node (.leaf "3") "+" (.leaf "2"))) ∧
    parse (serializeParens (.node (.leaf "3") "+" (.leaf "2"))) = .ok none := by
  refine ⟨rfl, ?_, rfl⟩
  decide

/-- C2: for valid argument tokens and two equal-precedence operators
the parse of "a OP1 b OP2 c" is the left-associated tree, never the
right-associated one, and `takes_precedence OP1 OP2` holds (the
non-strict comparison `rank(op1) >= rank(op2)` is what makes the
stacked left operator reduce first). -/
theorem C2_equal_precedence_left_assoc (a b c op1 op2 : String)
    (ha : valid_arg a = true) (hb : valid_arg b = true) (hc : valid_arg c = true)
    (hops : ((op1 = "+" ∨ op1 = "-") ∧ (op2 = "+" ∨ op2 = "-")) ∨
            ((op1 = "*" ∨ op1 = "/") ∧ (op2 = "*" ∨ op2 = "/"))) :
    parse (a ++ " " ++ op1 ++ " " ++ b ++ " " ++ op2 ++ " " ++ c) =
      .ok (some (.node (.node (.leaf a) op1 (.leaf b)) op2 (.leaf c))) ∧
    parse (a ++ " " ++ op1 ++ " " ++ b ++ " " ++ op2 ++ " " ++ c) ≠
      .ok (some (.node (.leaf a) op1 (.node (.leaf b) op2 (.leaf c)))) ∧
    takes_precedence op1 op2 = .ok true := by
  have hvo1 : valid_op op1 = true := by
    rcases hops with ⟨h1, _⟩ | ⟨h1, _⟩ <;> rcases h1 with h1 | h1 <;> subst h1 <;> rfl
  have hvo2 : valid_op op2 = true := by
    rcases hops with ⟨_, h2⟩ | ⟨_, h2⟩ <;> rcases h2 with h2 | h2 <;> subst h2 <;> rfl
  have hfacts : ∀ t ∈ [a, op1, b, op2, c],
      t ≠ "" ∧ ∀ ch ∈ t.data, py_isspace ch = false := by
    intro t ht
    simp only [List.mem_cons, List.not_mem_nil, or_false] at ht
    rcases ht with h | h | h | h | h <;> subst h
    · exact ⟨valid_arg_ne_empty ha, valid_arg_no_space ha⟩
    · exact ⟨valid_op_ne_empty hvo1, valid_op_no_space hvo1⟩
    · exact ⟨valid_arg_ne_empty hb, valid_arg_no_space hb⟩
    · exact ⟨valid_op_ne_empty hvo2, valid_op_no_space hvo2⟩
    · exact ⟨valid_arg_ne_empty hc, valid_arg_no_space hc⟩
  have hjoin : a ++ " " ++ op1 ++ " " ++ b ++ " " ++ op2 ++ " " ++ c
      = joinTokens [a, op1, b, op2, c] := by
    simp [joinTokens, string_append_assoc]
  have hlex : lex (a ++ " " ++ op1 ++ " " ++ b ++ " " ++ op2 ++ " " ++ c)
      = [a, op1, b, op2, c] := by
    rw [hjoin]
    exact lex_join _ hfacts
  have ha2 := valid_arg_beq_empty ha
  have hb2 := valid_arg_beq_empty hb
  have hc2 := valid_arg_beq_empty hc
  have hmain : parse (a ++ " " ++ op1 ++ " " ++ b ++ " " ++ op2 ++ " " ++ c) =
      .ok (some (.node (.node (.leaf a) op1 (.leaf b)) op2 (.leaf c))) := by
    show parseToks (lex (a ++ " " ++ op1 ++ " " ++ b ++ " " ++ op2 ++ " " ++ c)) = _
    rw [hlex]
    rcases hops with ⟨h1, h2⟩ | ⟨h1, h2⟩ <;> rcases h1 with h1 | h1 <;>
        rcases h2 with h2 | h2 <;> subst h1 <;> subst h2 <;>
      simp [parseToks, iter, step, shift_arg, shift_op, reduce, reducible, terminated,
        next_tok, peek_ops, pop_ops, pop_args, takes_precedence, OPERATORS_get, OPERATORS,
        valid_op, truthyStr, truthyOptStr, truthyTree, finalResult, initConfig,
        ha, hb, hc, ha2, hb2, hc2]
  refine ⟨hmain, ?_, ?_⟩
  · rw [hmain]
    intro heq
    simp at heq
  · rcases hops with ⟨h1, h2⟩ | ⟨h1, h2⟩ <;> rcases h1 with h1 | h1 <;>
      rcases h2 with h2 | h2 <;> subst h1 <;> subst h2 <;> rfl

/-- C2 witness: instantiated at "3 + 2 - 6". -/
theorem C2_equal_precedence_left_assoc_witness :
    valid_arg "3" = true ∧ valid_arg "2" = true ∧ valid_arg "6" = true ∧
    parse ("3" ++ " " ++ "+" ++ " " ++ "2" ++ " " ++ "-" ++ " " ++ "6") =
      .ok (some (.node (.node (.leaf "3") "+" (.leaf "2")) "-" (.leaf "6"))) :=
  ⟨rfl, rfl, rfl,
    (C2_equal_precedence_left_assoc "3" "2" "6" "+" "-" rfl rfl rfl
      (Or.inl ⟨Or.inl rfl, Or.inr rfl⟩)).1⟩

/-! Case analyses of the machine transitions. -/

theorem valid_arg_truthy {s : String} (h : valid_arg s = true) : truthyStr s = true := by
  simp [truthyStr, valid_arg_beq_empty h]

theorem WFt_truthy {t : Tree} (h : WFt t = true) : truthyTree t = true := by
  cases t with
  | leaf s => exact valid_arg_truthy h
  | node l op r => rfl

theorem next_tok_some_lt {c : Config} {tok : String} (h : next_tok c = some tok) :
    c.index < c.toks.length ∧ c.toks.take (c.index + 1) = c.toks.take c.index ++ [tok] := by
  unfold next_tok at h
  obtain ⟨hlt, _⟩ := List.getElem?_eq_some_iff.mp h
  refine ⟨hlt, ?_⟩
  rw [List.take_succ, h]
  rfl

theorem shift_arg_split (c : Config) :
    (∃ tok, next_tok c = some tok ∧ truthyStr tok = true ∧ valid_arg tok = true ∧
      shift_arg c =
        { c with args := .leaf tok :: c.args, index := c.index + 1, state := .opState }) ∨
    shift_arg c = { c with state := .endState } := by
  unfold shift_arg
  cases h : next_tok c with
  | none => exact Or.inr rfl
  | some tok =>
    rcases h2 : truthyStr tok && valid_arg tok with _ | _
    · right
      simp [h2]
    · left
      have h3 := h2
      rw [Bool.and_eq_true] at h3
      exact ⟨tok, rfl, h3.1, h3.2, by simp [h2]⟩

theorem shift_op_split (c : Config) :
    (∃ tok, next_tok c = some tok ∧ truthyStr tok = true ∧ valid_op tok = true ∧
      shift_op c =
        { c with ops := tok :: c.ops, index := c.index + 1, state := .argState }) ∨
    shift_op c = { c with state := .endState } := by
  unfold shift_op
  cases h : next_tok c with
  | none => exact Or.inr rfl
  | some tok =>
    rcases h2 : truthyStr tok && valid_op tok with _ | _
    · right
      simp [h2]
    · left
      have h3 := h2
      rw [Bool.and_eq_true] at h3
      exact ⟨tok, rfl, h3.1, h3.2, by simp [h2]⟩

theorem reduce_eq_of_shapes {c : Config} {op : String} {rest1 : List String}
    {a1 a2 : Tree} {rest2 : List Tree}
    (hops : c.ops = op :: rest1) (hargs : c.args = a1 :: a2 :: rest2)
    (h1 : truthyStr op = true) (h2 : truthyTree a1 = true) (h3 : truthyTree a2 = true) :
    reduce c = { c with ops := rest1, args := .node a2 op a1 :: rest2 } := by
  simp [reduce, pop_ops, pop_args, hops, hargs, h1, h2, h3]

theorem reduce_split (c : Config) (op : String) (rest : List String)
    (hops : c.ops = op :: rest) :
    (∃ a1 a2 rest2, c.args = a1 :: a2 :: rest2 ∧
      reduce c = { c with ops := rest, args := .node a2 op a1 :: rest2 }) ∨
    (reduce c).state = .endState := by
  cases hargs : c.args with
  | nil =>
    right
    simp [reduce, pop_ops, pop_args, hops, hargs]
  | cons a1 args1 =>
    cases hargs2 : args1 with
    | nil =>
      right
      simp [reduce, pop_ops, pop_args, hops, hargs, hargs2]
    | cons a2 rest2 =>
      have hfull : c.args = a1 :: a2 :: rest2 := by rw [hargs, hargs2]
      by_cases hcond : (truthyStr op && truthyTree a1 && truthyTree a2) = true
      · left
        have hcond2 := hcond
        rw [Bool.and_eq_true, Bool.and_eq_true] at hcond2
        exact ⟨a1, a2, rest2, rfl,
          reduce_eq_of_shapes hops hfull hcond2.1.1 hcond2.1.2 hcond2.2⟩
      · right
        have hcond2 : (truthyStr op && truthyTree a1 && truthyTree a2) = false := by
          simpa using hcond
        simp [reduce, pop_ops, pop_args, hops, hargs, hargs2, hcond2]

theorem reducible_true_ops {c : Config} (h : reducible c = .ok true) :
    ∃ op rest, c.ops = op :: rest ∧ truthyStr op = true := by
  cases hops : c.ops with
  | nil =>
    rw [show reducible c = .ok false from by simp [reducible, peek_ops, hops]] at h
    simp at h
  | cons op rest =>
    refine ⟨op, rest, rfl, ?_⟩
    rcases htr : truthyStr op with _ | _
    · rw [show reducible c = .ok false from by simp [reducible, peek_ops, hops, htr]] at h
      simp at h
    · rfl

theorem step_measure {c c1 : Config} (hs : c.state ≠ .endState) (h : step c = .ok c1) :
    c1.state = .endState ∨ fuelMeasure c1 < fuelMeasure c := by
  cases hst : c.state with
  | endState => exact absurd hst hs
  | argState =>
    unfold step at h
    rw [hst] at h
    have hc1 : shift_arg c = c1 := by injection h
    rcases shift_arg_split c with ⟨tok, hnt, _, _, he⟩ | he
    · right
      rw [he] at hc1
      obtain ⟨hlt, _⟩ := next_tok_some_lt hnt
      rw [← hc1]
      show 2 * (c.toks.length - (c.index + 1)) + c.ops.length + 1
        < 2 * (c.toks.length - c.index) + c.ops.length + 1
      omega
    · left
      rw [he] at hc1
      rw [← hc1]
  | opState =>
    unfold step at h
    rw [hst] at h
    by_cases ht : terminated c = true
    · rw [if_pos ht] at h
      have hc1 : ({ c with state := PState.endState } : Config) = c1 := by injection h
      left
      rw [← hc1]
    · rw [if_neg ht] at h
      cases hr : reducible c with
      | error e =>
        rw [hr] at h
        exact Except.noConfusion h
      | ok b =>
        rw [hr] at h
        cases b with
        | true =>
          have hc1 : reduce c = c1 := by injection h
          obtain ⟨op, rest, hops, _⟩ := reducible_true_ops hr
          rcases reduce_split c op rest hops with ⟨a1, a2, rest2, hargs, hred⟩ | hend
          · right
            rw [hred] at hc1
            rw [← hc1]
            show 2 * (c.toks.length - c.index) + rest.length + 1
              < 2 * (c.toks.length - c.index) + c.ops.length + 1
            rw [hops]
            simp only [List.length_cons]
            omega
          · left
            rw [← hc1]
            exact hend
        | false =>
          have hc1 : shift_op c = c1 := by injection h
          rcases shift_op_split c with ⟨tok, hnt, _, _, he⟩ | he
          · right
            rw [he] at hc1
            obtain ⟨hlt, _⟩ := next_tok_some_lt hnt
            rw [← hc1]
            show 2 * (c.toks.length - (c.index + 1)) + (c.ops.length + 1) + 1
              < 2 * (c.toks.length - c.index) + c.ops.length + 1
            omega
          · left
            rw [he] at hc1
            rw [← hc1]

theorem iter_end {fuel : Nat} {c : Config} (h : c.state = .endState) :
    iter fuel c = .ok c := by
  cases fuel with
  | zero => rfl
  | succ n => simp [iter, h]

theorem iter_halts (fuel : Nat) : ∀ c, fuelMeasure c ≤ fuel → halted (iter fuel c) = true := by
  induction fuel with
  | zero =>
    intro c h
    exfalso
    have h2 : 0 < fuelMeasure c := by
      unfold fuelMeasure
      omega
    omega
  | succ n ih =>
    intro c h
    by_cases hs : c.state = .endState
    · rw [iter_end hs]
      simp [halted, hs]
    · rw [show iter (n + 1) c
          = (match step c with | .error e => .error e | .ok c1 => iter n c1) from by
        simp [iter, hs]]
      cases hstep : step c with
      | error e => simp [halted]
      | ok c1 =>
        rcases step_measure hs hstep with hend | hlt
        · simp only []
          rw [iter_end hend]
          simp [halted, hend]
        · exact ih c1 (by omega)

/-- C6 counterexample: the claimed bound of `2 * n` iterations fails on
the empty input, where the lexer produces zero tokens but the machine
still needs one iteration (the failing argument shift) to reach the
"end" state. -/
theorem C6_two_n_bound_counterexample :
    ¬(∃ k, k ≤ 2 * (lex "").length ∧
      ∃ cf, iter k (initConfig (lex "")) = .ok cf ∧ cf.state = .endState) := by
  rintro ⟨k, hk, cf, hit, hst⟩
  have hlen : (lex "").length = 0 := rfl
  have hk0 : k = 0 := by omega
  subst hk0
  injection hit with hcf
  rw [← hcf] at hst
  exact absurd hst (by decide)

/-- C6 amended: for every input the driving loop halts — reaching the
"end" state or aborting on the `KeyError` of the reducibility check —
within `2 * n + 1` iterations, where `n` is the number of lexed tokens
(the bound `2 * n` of the claim fails on the empty input). -/
theorem C6_loop_halts_within_bound (s : String) :
    ∃ k, k ≤ 2 * (lex s).length + 1 ∧ halted (iter k (initConfig (lex s))) = true :=
  ⟨2 * (lex s).length + 1, le_refl _,
    iter_halts _ _ (by unfold fuelMeasure initConfig; simp)⟩

/-! Preservation of the stack invariant. -/

theorem initConfig_inv (toks : List String) : Inv toks (initConfig toks) := by
  refine ⟨rfl, by simp [initConfig], by simp [initConfig], by simp [initConfig], ?_, ?_, ?_⟩
  · intro _
    exact ⟨rfl, by simp [initConfig, consumedToks]⟩
  · intro h2
    simp [initConfig] at h2
  · intro h2
    simp [initConfig] at h2

theorem step_inv {toks : List String} {c c1 : Config} (hI : Inv toks c)
    (h : step c = .ok c1) : Inv toks c1 := by
  obtain ⟨htoks, hidx, hWF, hvops, hA, hO, hE⟩ := hI
  cases hst : c.state with
  | endState =>
    have hc1 : c = c1 := by
      unfold step at h
      rw [hst] at h
      injection h
    rw [← hc1]
    exact ⟨htoks, hidx, hWF, hvops, hA, hO, hE⟩
  | argState =>
    unfold step at h
    rw [hst] at h
    have hc1 : shift_arg c = c1 := by injection h
    rcases shift_arg_split c with ⟨tok, hnt, _, hva, he⟩ | he
    · rw [he] at hc1
      rw [← hc1]
      obtain ⟨hlt, htake⟩ := next_tok_some_lt hnt
      obtain ⟨hlen, hcons⟩ := hA hst
      rw [htoks] at hlt htake
      refine ⟨htoks, by show c.index + 1 ≤ toks.length; omega, ?_, hvops, ?_, ?_, ?_⟩
      · intro t ht
        rcases List.mem_cons.mp ht with ht2 | ht2
        · rw [ht2]
          exact hva
        · exact hWF t ht2
      · intro h2
        simp at h2
      · intro _
        refine ⟨.leaf tok, c.args, rfl, hlen, ?_⟩
        show toks.take (c.index + 1) = consumedToks c.args c.ops ++ flat (.leaf tok)
        rw [htake, hcons]
        rfl
      · intro h2
        simp at h2
    · rw [he] at hc1
      rw [← hc1]
      refine ⟨htoks, hidx, hWF, hvops, ?_, ?_, ?_⟩
      · intro h2
        simp at h2
      · intro h2
        simp at h2
      · intro _
        exact Or.inl (hA hst)
  | opState =>
    unfold step at h
    rw [hst] at h
    by_cases ht : terminated c = true
    · rw [if_pos ht] at h
      have hc1 : ({ c with state := PState.endState } : Config) = c1 := by injection h
      rw [← hc1]
      refine ⟨htoks, hidx, hWF, hvops, ?_, ?_, ?_⟩
      · intro h2
        simp at h2
      · intro h2
        simp at h2
      · intro _
        exact Or.inr (hO hst)
    · rw [if_neg ht] at h
      cases hr : reducible c with
      | error e =>
        rw [hr] at h
        exact Except.noConfusion h
      | ok b =>
        rw [hr] at h
        cases b with
        | true =>
          have hc1 : reduce c = c1 := by injection h
          obtain ⟨op, rest, hops, htrop⟩ := reducible_true_ops hr
          obtain ⟨a, as, hargs, hlen, hcons⟩ := hO hst
          have hasne : as ≠ [] := by
            rw [hops] at hlen
            intro he2
            rw [he2] at hlen
            simp at hlen
          obtain ⟨a2, rest2, has⟩ := List.exists_cons_of_ne_nil hasne
          have hargs2 : c.args = a :: a2 :: rest2 := by rw [hargs, has]
          have hWFa : WFt a = true := hWF a (by rw [hargs]; simp)
          have hWFa2 : WFt a2 = true := hWF a2 (by rw [hargs2]; simp)
          have hred := reduce_eq_of_shapes hops hargs2 htrop (WFt_truthy hWFa)
            (WFt_truthy hWFa2)
          rw [hred] at hc1
          rw [← hc1]
          have hvop : valid_op op = true := hvops op (by rw [hops]; simp)
          refine ⟨htoks, hidx, ?_, ?_, ?_, ?_, ?_⟩
          · intro t ht
            rcases List.mem_cons.mp ht with ht2 | ht2
            · rw [ht2]
              show (valid_op op && WFt a2 && WFt a) = true
              rw [hvop, hWFa, hWFa2]
              rfl
            · exact hWF t (by rw [hargs2]; simp [ht2])
          · intro o ho
            exact hvops o (by rw [hops]; simp [ho])
          · intro h2
            rw [hst] at h2
            exact absurd h2 (by decide)
          · intro _
            refine ⟨.node a2 op a, rest2, rfl, ?_, ?_⟩
            · rw [hops] at hlen
              rw [has] at hlen
              simpa using hlen
            · show toks.take c.index = consumedToks rest2 rest ++ flat (.node a2 op a)
              rw [has, hops] at hcons
              rw [hcons]
              show consumedToks rest2 rest ++ flat a2 ++ [op] ++ flat a
                = consumedToks rest2 rest ++ (flat a2 ++ op :: flat a)
              simp [List.append_assoc]
          · intro h2
            rw [hst] at h2
            exact absurd h2 (by decide)
        | false =>
          have hc1 : shift_op c = c1 := by injection h
          rcases shift_op_split c with ⟨tok, hnt, _, hvo, he⟩ | he
          · rw [he] at hc1
            rw [← hc1]
            obtain ⟨hlt, htake⟩ := next_tok_some_lt hnt
            obtain ⟨a, as, hargs, hlen, hcons⟩ := hO hst
            rw [htoks] at hlt htake
            refine ⟨htoks, by show c.index + 1 ≤ toks.length; omega, hWF, ?_, ?_, ?_, ?_⟩
            · intro o ho
              rcases List.mem_cons.mp ho with ho2 | ho2
              · rw [ho2]
                exact hvo
              · exact hvops o ho2
            · intro _
              show shapeA toks
                { c with ops := tok :: c.ops, index := c.index + 1, state := .argState }
              refine ⟨?_, ?_⟩
              · show c.args.length = (tok :: c.ops).length
                rw [hargs]
                simp [hlen]
              · show toks.take (c.index + 1) = consumedToks c.args (tok :: c.ops)
                rw [htake, hcons, hargs]
                show consumedToks as c.ops ++ flat a ++ [tok]
                  = consumedToks as c.ops ++ flat a ++ [tok]
                rfl
            · intro h2
              simp at h2
            · intro h2
              simp at h2
          · rw [he] at hc1
            rw [← hc1]
            refine ⟨htoks, hidx, hWF, hvops, ?_, ?_, ?_⟩
            · intro h2
              simp at h2
            · intro h2
              simp at h2
            · intro _
              exact Or.inr (hO hst)

theorem reach_inv {toks : List String} {c : Config} (h : Reach toks c) : Inv toks c := by
  induction h with
  | init => exact initConfig_inv toks
  | next c0 c1 hr hs hstep ih => exact step_inv ih hstep

theorem iter_inv {toks : List String} :
    ∀ (fuel : Nat) {c cf : Config}, Inv toks c → iter fuel c = .ok cf → Inv toks cf := by
  intro fuel
  induction fuel with
  | zero =>
    intro c cf hI h
    have hc : c = cf := by injection h
    rw [← hc]
    exact hI
  | succ n ih =>
    intro c cf hI h
    by_cases hs : c.state = .endState
    · rw [iter_end hs] at h
      have hc : c = cf := by injection h
      rw [← hc]
      exact hI
    · rw [show iter (n + 1) c
          = (match step c with | .error e => .error e | .ok c1 => iter n c1) from by
        simp [iter, hs]] at h
      cases hstep : step c with
      | error e =>
        rw [hstep] at h
        exact Except.noConfusion h
      | ok c1 =>
        rw [hstep] at h
        exact ih (step_inv hI hstep) h

/-- C7: in every configuration reachable by the driving loop from an
initial configuration, whenever the state is "op" and both stacks are
non-empty the argument stack holds exactly one more element than the
operator stack; the proof is an induction over the transitions
(shift_arg, shift_op, reduce), each of which preserves the invariant. -/
theorem C7_op_state_stack_invariant (s : String) (c : Config)
    (h : Reach (lex s) c) (hst : c.state = .opState)
    (_hops : c.ops ≠ []) (_hargs : c.args ≠ []) :
    c.args.length = c.ops.length + 1 := by
  obtain ⟨-, -, -, -, -, hO, -⟩ := reach_inv h
  obtain ⟨a, as, hargs2, hlen, -⟩ := hO hst
  rw [hargs2]
  simp [hlen]

/-- C7 witness: the configuration of "3 + 2" after the shifts of "3",
"+" and "2", which is reachable in three transitions and has one
operator and two arguments on the stacks. -/
theorem C7_op_state_stack_invariant_witness :
    (⟨["+"], [.leaf "2", .leaf "3"], .opState, ["3", "+", "2"], 3⟩ : Config).args.length =
      (⟨["+"], [.leaf "2", .leaf "3"], .opState, ["3", "+", "2"], 3⟩ : Config).ops.length + 1 := by
  refine C7_op_state_stack_invariant "3 + 2" _ ?_ rfl (by decide) (by decide)
  refine Reach.next (⟨["+"], [.leaf "3"], .argState, ["3", "+", "2"], 2⟩ : Config) _
    ?_ (by decide) (by decide)
  refine Reach.next (⟨[], [.leaf "3"], .opState, ["3", "+", "2"], 1⟩ : Config) _
    ?_ (by decide) (by decide)
  refine Reach.next (initConfig (lex "3 + 2")) _ Reach.init (by decide) (by decide)

/-! Extraction of the final parse result and the traversal theorems. -/

theorem finalResult_some {c : Config} {t : Tree} (h : finalResult c = some t) :
    terminated c = true ∧ c.args = [t] := by
  unfold finalResult at h
  by_cases hc : (terminated c && c.args.length == 1) = true
  · rw [if_pos hc] at h
    rw [Bool.and_eq_true] at hc
    refine ⟨hc.1, ?_⟩
    cases hargs : c.args with
    | nil =>
      rw [hargs] at h
      simp at h
    | cons a rest =>
      cases rest with
      | nil =>
        rw [hargs] at h
        simp at h
        rw [h]
      | cons b rest2 =>
        exfalso
        have h2 := hc.2
        rw [hargs] at h2
        simp at h2
  · rw [if_neg hc] at h
    exact Option.noConfusion h

theorem terminated_true {c : Config} (h : terminated c = true) :
    c.ops = [] ∧ truthyOptStr (next_tok c) = false := by
  unfold terminated at h
  rw [Bool.not_eq_true'] at h
  rw [Bool.or_eq_false_iff] at h
  rw [Bool.not_eq_false'] at h
  exact ⟨List.isEmpty_iff.mp h.1, h.2⟩

theorem cursor_at_end {toks : List String} {c : Config} (hne : ∀ t ∈ toks, t ≠ "")
    (htoks : c.toks = toks) (hidx : c.index ≤ toks.length)
    (h : truthyOptStr (next_tok c) = false) : c.index = toks.length := by
  by_contra hcon
  have hlt : c.index < toks.length := by omega
  have hnt : next_tok c = some toks[c.index] := by
    unfold next_tok
    rw [htoks]
    exact List.getElem?_eq_getElem hlt
  rw [hnt] at h
  have hmem : toks[c.index] ∈ toks := List.getElem_mem hlt
  have hne2 := hne _ hmem
  unfold truthyOptStr truthyStr at h
  rw [Bool.not_eq_false'] at h
  exact hne2 (eq_of_beq h)

theorem parseToks_ok_config {toks : List String} {r : Option Tree}
    (h : parseToks toks = .ok r) :
    ∃ cf, iter (2 * toks.length + 1) (initConfig toks) = .ok cf ∧ finalResult cf = r := by
  unfold parseToks at h
  cases hit : iter (2 * toks.length + 1) (initConfig toks) with
  | error e =>
    rw [hit] at h
    exact Except.noConfusion h
  | ok cf =>
    rw [hit] at h
    have h2 : finalResult cf = r := by injection h
    exact ⟨cf, rfl, h2⟩

theorem parse_success_structure {s : String} {t : Tree} (h : parse s = .ok (some t)) :
    flat t = lex s ∧ WFt t = true := by
  obtain ⟨cf, hit, hfin⟩ := parseToks_ok_config h
  have hI : Inv (lex s) cf := iter_inv _ (initConfig_inv (lex s)) hit
  obtain ⟨htoks, hidx, hWF, hvops, hA, hO, hE⟩ := hI
  obtain ⟨hterm, hargs⟩ := finalResult_some hfin
  obtain ⟨hops, hnt⟩ := terminated_true hterm
  have hidx2 : cf.index = (lex s).length := cursor_at_end (lex_no_empty s) htoks hidx hnt
  have hshape : shapeA (lex s) cf ∨ shapeO (lex s) cf := by
    cases hstc : cf.state with
    | argState => exact Or.inl (hA hstc)
    | opState => exact Or.inr (hO hstc)
    | endState => exact hE hstc
  rcases hshape with ⟨hlen, -⟩ | ⟨a, as, hargs2, hlen, hcons⟩
  · rw [hargs, hops] at hlen
    simp at hlen
  · rw [hargs] at hargs2
    have h1 : t = a := by injection hargs2
    have h2 : ([] : List Tree) = as := by injection hargs2
    rw [← h1, ← h2, hops] at hcons
    rw [hidx2, List.take_length] at hcons
    rw [show consumedToks [] [] ++ flat t = flat t from rfl] at hcons
    exact ⟨hcons.symm, hWF t (by rw [hargs]; simp)⟩

/-! Alternation of the traversal token sequence. -/

theorem altB_append (op : String) (ys : List String) (hop : valid_op op = true)
    (hys : altB ys = true) :
    ∀ xs, altB xs = true → altB (xs ++ op :: ys) = true := by
  intro xs
  induction xs using altB.induct with
  | case1 =>
    intro hxs
    simp [altB] at hxs
  | case2 t =>
    intro hxs
    have hvt : valid_arg t = true := hxs
    show altB (t :: op :: ys) = true
    rw [show altB (t :: op :: ys) = (valid_arg t && valid_op op && altB ys) from rfl]
    rw [hvt, hop, hys]
    rfl
  | case3 t op2 rest ih =>
    intro hxs
    rw [show altB (t :: op2 :: rest) = (valid_arg t && valid_op op2 && altB rest) from rfl,
      Bool.and_eq_true, Bool.and_eq_true] at hxs
    show altB (t :: op2 :: (rest ++ op :: ys)) = true
    rw [show altB (t :: op2 :: (rest ++ op :: ys))
        = (valid_arg t && valid_op op2 && altB (rest ++ op :: ys)) from rfl]
    rw [hxs.1.1, hxs.1.2, ih hxs.2]
    rfl

theorem WFt_flat_alt {t : Tree} (h : WFt t = true) : altB (flat t) = true := by
  induction t with
  | leaf s => simpa [flat, altB] using h
  | node l op r ihl ihr =>
    have h2 := h
    rw [show WFt (.node l op r) = (valid_op op && WFt l && WFt r) from rfl,
      Bool.and_eq_true, Bool.and_eq_true] at h2
    obtain ⟨⟨hop, hl⟩, hr⟩ := h2
    rw [show flat (.node l op r) = flat l ++ op :: flat r from rfl]
    exact altB_append op (flat r) hop (ihr hr) (flat l) (ihl hl)

theorem altB_odd {ts : List String} (h : altB ts = true) : ts.length % 2 = 1 := by
  induction ts using altB.induct with
  | case1 => simp [altB] at h
  | case2 t => rfl
  | case3 t op rest ih =>
    rw [show altB (t :: op :: rest) = (valid_arg t && valid_op op && altB rest) from rfl,
      Bool.and_eq_true, Bool.and_eq_true] at h
    have h2 := ih h.2
    simp only [List.length_cons]
    omega

theorem altB_get {ts : List String} (h : altB ts = true) :
    ∀ i (hi : i < ts.length),
      if i % 2 = 0 then valid_arg (ts.get ⟨i, hi⟩) = true
      else valid_op (ts.get ⟨i, hi⟩) = true := by
  induction ts using altB.induct with
  | case1 => simp [altB] at h
  | case2 t =>
    intro i hi
    have hi0 : i = 0 := by
      simp at hi
      omega
    subst hi0
    simpa [List.get] using h
  | case3 t op rest ih =>
    rw [show altB (t :: op :: rest) = (valid_arg t && valid_op op && altB rest) from rfl,
      Bool.and_eq_true, Bool.and_eq_true] at h
    intro i hi
    match i with
    | 0 => simpa [List.get] using h.1.1
    | 1 => simpa [List.get] using h.1.2
    | (k + 2) =>
      have hk : k < rest.length := by
        simp only [List.length_cons] at hi
        omega
      have := ih h.2 k hk
      have hmod : (k + 2) % 2 = k % 2 := by omega
      rw [hmod]
      simpa [List.get] using this

theorem altB_token_facts {ts : List String} (h : altB ts = true) :
    ∀ tok ∈ ts, tok ≠ "" ∧ ∀ ch ∈ tok.data, py_isspace ch = false := by
  induction ts using altB.induct with
  | case1 => simp [altB] at h
  | case2 t =>
    intro tok htok
    have ht : tok = t := by simpa using htok
    subst ht
    have hv : valid_arg tok = true := h
    exact ⟨valid_arg_ne_empty hv, valid_arg_no_space hv⟩
  | case3 t op rest ih =>
    rw [show altB (t :: op :: rest) = (valid_arg t && valid_op op && altB rest) from rfl,
      Bool.and_eq_true, Bool.and_eq_true] at h
    intro tok htok
    rcases List.mem_cons.mp htok with h1 | h1
    · subst h1
      exact ⟨valid_arg_ne_empty h.1.1, valid_arg_no_space h.1.1⟩
    rcases List.mem_cons.mp h1 with h2 | h2
    · subst h2
      exact ⟨valid_op_ne_empty h.1.2, valid_op_no_space h.1.2⟩
    · exact ih h.2 tok h2

/-- C10: whenever `parse` succeeds, the in-order traversal of the
returned tree is exactly the lexed token sequence of the input, in
order; consequently the token sequence has odd length, with valid
argument tokens at the even positions and valid operators at the odd
positions. -/
theorem C10_inorder_traversal (s : String) (t : Tree) (h : parse s = .ok (some t)) :
    flat t = lex s ∧ (lex s).length % 2 = 1 ∧
    (∀ i (hi : i < (lex s).length),
      if i % 2 = 0 then valid_arg ((lex s).get ⟨i, hi⟩) = true
      else valid_op ((lex s).get ⟨i, hi⟩) = true) := by
  obtain ⟨hflat, hWF⟩ := parse_success_structure h
  have halt : altB (lex s) = true := hflat ▸ WFt_flat_alt hWF
  exact ⟨hflat, altB_odd halt, altB_get halt⟩

/-- C10 witness: instantiated at "3 + 2". -/
theorem C10_inorder_traversal_witness :
    parse "3 + 2" = .ok (some (.node (.leaf "3") "+" (.leaf "2"))) ∧
    (flat (.node (.leaf "3") "+" (.leaf "2")) = lex "3 + 2" ∧
      (lex "3 + 2").length % 2 = 1 ∧
      (∀ i (hi : i < (lex "3 + 2").length),
        if i % 2 = 0 then valid_arg ((lex "3 + 2").get ⟨i, hi⟩) = true
        else valid_op ((lex "3 + 2").get ⟨i, hi⟩) = true)) :=
  ⟨rfl, C10_inorder_traversal "3 + 2" (.node (.leaf "3") "+" (.leaf "2")) rfl⟩

/-- C5 amended: the grammar has no parentheses, so the code-accurate
round-trip drops the explicit parenthesization: whenever `parse`
succeeds with tree `t`, serializing `t` as its space-joined in-order
token sequence and reparsing yields exactly `t` again. -/
theorem C5_flat_roundtrip (s : String) (t : Tree) (h : parse s = .ok (some t)) :
    parse (serializeFlat t) = .ok (some t) := by
  obtain ⟨hflat, hWF⟩ := parse_success_structure h
  have halt : altB (flat t) = true := WFt_flat_alt hWF
  have hlex2 : lex (serializeFlat t) = flat t :=
    lex_join (flat t) (altB_token_facts halt)
  show parseToks (lex (serializeFlat t)) = .ok (some t)
  rw [hlex2, hflat]
  exact h

/-- C5 witness: the flattening round trip at "3 + 2". -/
theorem C5_flat_roundtrip_witness :
    parse "3 + 2" = .ok (some (.node (.leaf "3") "+" (.leaf "2"))) ∧
    parse (serializeFlat (.node (.leaf "3") "+" (.leaf "2"))) =
      .ok (some (.node (.leaf "3") "+" (.leaf "2"))) :=
  ⟨rfl, C5_flat_roundtrip "3 + 2" (.node (.leaf "3") "+" (.leaf "2")) rfl⟩

end OpPrecParse
